import Mathlib

/-!
# Walrus runtime I/O shim (`misc/runtime.c`)

A shallow embedding of the five functions of `runtime.c` together with the part
of the hosted C library they call: `printf` with the conversions `%i`, `%g`,
`%c`, `%s`, and `scanf` with the format `"%d"`.  The library part follows
ISO C (7.21.6.1 `fprintf`, 7.21.6.2 `fscanf`) for the "C" locale on a host with
8-bit bytes, 32-bit `int`, 64-bit `long` and IEEE-754 binary64 `double`; where
ISO C leaves the behaviour open (a `%d` token out of range, more output than
`INT_MAX` bytes in one `printf` call) it follows glibc.

The console is explicit state: `World.stdin` holds the bytes not yet read (the
empty list is end of input), `World.stdout` the bytes written so far.
-/

namespace Walrus

set_option autoImplicit false
set_option linter.unusedVariables false
set_option maxRecDepth 100000

/-! ## Bytes, streams, integer limits -/

/-- One byte (`unsigned char`). -/
abbrev Byte := Fin 256

/-- The bytes of a C string literal written with ASCII characters (without the
terminating NUL). -/
def lit (s : String) : List Byte := s.toList.map (fun c => Fin.ofNat c.toNat)

/-- The console streams of the process. -/
structure World where
  /-- bytes of standard input not yet consumed; `[]` is end of input -/
  stdin : List Byte
  /-- bytes written to standard output so far -/
  stdout : List Byte
deriving DecidableEq, Repr

/-- Smallest value of `int`. -/
def INT_MIN : Int := -2147483648

/-- Largest value of `int`. -/
def INT_MAX : Int := 2147483647

/-- Smallest value of `long`. -/
def LONG_MIN : Int := -9223372036854775808

/-- Largest value of `long`. -/
def LONG_MAX : Int := 9223372036854775807

/-- The value of the stdio macro with the same name. -/
def EOF : Int := -1

/-- Membership in the range of `int`. -/
def isInt (n : Int) : Prop := INT_MIN ≤ n ∧ n ≤ INT_MAX

instance (n : Int) : Decidable (isInt n) := by unfold isInt; infer_instance

/-! ## `scanf("%d", &x)` -/

/-- The classification `isspace` of the "C" locale: space, `\t`, `\n`, `\v`,
`\f`, `\r`. -/
def isspace (c : Byte) : Bool := c.val == 32 || (9 ≤ c.val && c.val ≤ 13)

/-- The classification `isdigit`: `'0'` to `'9'`. -/
def isdigit (c : Byte) : Bool := 48 ≤ c.val && c.val ≤ 57

/-- Value of a run of decimal digit characters, most significant first, on top
of the value `acc` read so far. -/
def digitsVal : List Byte → Nat → Nat
  | [], acc => acc
  | c :: cs, acc => digitsVal cs (acc * 10 + (c.val - 48))

/-- Conversion of a mathematical integer to `int` by reduction modulo `2^32`
(the two-complement representation). -/
def wrapInt (v : Int) : Int := (v - INT_MIN) % 4294967296 + INT_MIN

/-- What a `%d` conversion stores in the `int` object for the token value `v`.
For `v` in the range of `int` it is `v`.  ISO C leaves the store of an
out-of-range value undefined; this follows the common hosts (glibc, musl), which
convert with `strtol` (saturating at the limits of `long`) and then narrow the
`long` to `int`. -/
def storeInt (v : Int) : Int := wrapInt (max LONG_MIN (min LONG_MAX v))

/-- Outcome of one `scanf("%d", &x)` call. -/
structure ScanResult where
  /-- return value: number of items assigned (`1` or `0`), or `EOF` -/
  ret : Int
  /-- content of the object `x` after the call -/
  x : Int
  /-- bytes of the stream left unread -/
  rest : List Byte
deriving DecidableEq, Repr

/-- The call `scanf("%d", &x)` on the unread input `inp`, where the object `x`
currently holds `x`.

The directive skips white space, then takes as input item the longest sequence
that is a prefix of an optionally signed non-empty digit run; the first byte
after the item stays unread.  End of input before the item is an input failure
(`EOF`); an item without digit is a matching failure (`0`), and in both cases
`x` is not assigned. -/
def scanf_d (inp : List Byte) (x : Int) : ScanResult :=
  match inp.dropWhile isspace with
  | [] => ⟨EOF, x, []⟩
  | c :: cs =>
    let neg := c == 45
    let t := if c == 45 || c == 43 then cs else c :: cs
    let ds := t.takeWhile isdigit
    let rest := t.dropWhile isdigit
    if ds.isEmpty then ⟨0, x, rest⟩
    else
      let v : Int := digitsVal ds 0
      ⟨1, storeInt (if neg then -v else v), rest⟩

/-- The function `_gets_int` of `runtime.c`:
```c
int _gets_int() {
  int x;
  if (scanf("%d", &x) == 1) {
    return x;
  }
  return 0;
}
```
`x0` is the indeterminate initial content of the local `x`. -/
def _gets_int (x0 : Int) (w : World) : Int × World :=
  let r := scanf_d w.stdin x0
  let w1 : World := { w with stdin := r.rest }
  if r.ret == 1 then (r.x, w1) else (0, w1)

/-! ## `printf` -/

/-- The character of the decimal digit `d`. -/
def digitChar (d : Nat) : Byte := Fin.ofNat (48 + d % 10)

/-- Decimal digits of `n`, most significant first, put in front of `acc`: the
usual loop that emits `n % 10` and continues with `n / 10` until the quotient
is zero (so `0` gives one digit).  `fuel` bounds the number of digits. -/
def utoa : Nat → Nat → List Byte → List Byte
  | 0, _, acc => acc
  | fuel + 1, n, acc =>
    if n / 10 = 0 then digitChar n :: acc
    else utoa fuel (n / 10) (digitChar n :: acc)

/-- The conversions `%d` and `%i` of an `int`: signed decimal in the style
`[-]dddd`, at least one digit. -/
def fmt_d (v : Int) : List Byte :=
  (if v < 0 then [45] else []) ++ utoa (v.natAbs + 1) v.natAbs []

/-- The conversion of an `int` argument to `unsigned char` done by `%c`. -/
def toUChar (v : Int) : Byte := Fin.ofNat (v % 256).toNat

/-- A value of type `double`: IEEE-754 binary64.  `finite neg m e` is
`(-1)^neg * m * 2^e`. -/
inductive Double where
  | finite (neg : Bool) (m : Nat) (e : Int)
  | inf (neg : Bool)
  | nan (neg : Bool)
deriving DecidableEq, Repr

/-- The finite values that binary64 can hold: significand below `2^53`,
exponent of the unit in the last place from `-1074` to `971`. -/
def Double.isFiniteValue : Double → Prop
  | .finite _ m e => m < 2 ^ 53 ∧ -1074 ≤ e ∧ e ≤ 971
  | _ => False

instance (d : Double) : Decidable d.isFiniteValue := by
  cases d <;> unfold Double.isFiniteValue <;> infer_instance

/-- Nearest natural number to `a / b`, ties to even (the default rounding
direction). -/
def roundHalfEven (a b : Nat) : Nat :=
  let q := a / b
  let r := a % b
  if 2 * r < b then q
  else if b < 2 * r then q + 1
  else if q % 2 = 0 then q else q + 1

/-- The fraction `(num / den) / 10^s` as numerator and denominator. -/
def scale10 (num den : Nat) (s : Int) : Nat × Nat :=
  if 0 ≤ s then (num, den * 10 ^ s.toNat) else (num * 10 ^ (-s).toNat, den)

/-- Is `10^k ≤ num / den`? -/
def pow10Le (num den : Nat) (k : Int) : Bool :=
  (scale10 num den k).2 ≤ (scale10 num den k).1

/-- Largest `j ≥ k` with `10^j ≤ num / den`, given `10^k ≤ num / den`. -/
def decExpUp (num den : Nat) : Nat → Int → Int
  | 0, k => k
  | fuel + 1, k => if pow10Le num den (k + 1) then decExpUp num den fuel (k + 1) else k

/-- Largest `j ≤ k` with `10^j ≤ num / den`. -/
def decExpDown (num den : Nat) : Nat → Int → Int
  | 0, k => k
  | fuel + 1, k => if pow10Le num den k then k else decExpDown num den fuel (k - 1)

/-- Decimal exponent of the positive value `num / den`: the `k` with
`10^k ≤ num / den < 10^(k+1)`.  The fuel covers the binary64 range. -/
def decExp (num den : Nat) : Int :=
  if den ≤ num then decExpUp num den 400 0 else decExpDown num den 400 (-1)

/-- Removal of trailing `'0'` characters. -/
def stripZeros (ds : List Byte) : List Byte :=
  (ds.reverse.dropWhile (fun c => c == 48)).reverse

/-- Integer part and fraction digits joined as `%g` does without the `#`
flag: trailing zeros of the fraction are removed, and the decimal point too
when no fraction is left. -/
def joinFraction (ip fp : List Byte) : List Byte :=
  if (stripZeros fp).isEmpty then ip else ip ++ 46 :: stripZeros fp

/-- The six significant decimal digits, as a number from `100000` to `999999`,
and the decimal exponent `X` of the positive value `num / den` rounded to six
significant digits: what an `e`-style conversion with precision 5 shows. -/
def g_round (num den : Nat) : Nat × Int :=
  let k := decExp num den
  let d0 := roundHalfEven (scale10 num den (k - 5)).1 (scale10 num den (k - 5)).2
  if d0 = 1000000 then (100000, k + 1) else (d0, k)

/-- The text of `%g` (precision 6) for the significant digits `sig` and the
exponent `X`: style `f` with precision `5 - X` when `-4 ≤ X < 6`, else style
`e` with precision `5` and an exponent of at least two digits; trailing zeros
of the fraction are removed. -/
def g_layout (sig : Nat) (X : Int) : List Byte :=
  let ds := utoa 6 sig []
  if X < -4 ∨ 6 ≤ X then
    joinFraction (ds.take 1) (ds.drop 1)
      ++ [101, if X < 0 then 45 else 43]
      ++ (if X.natAbs < 10 then [48] else []) ++ utoa 4 X.natAbs []
  else if 0 ≤ X then
    joinFraction (ds.take (X.toNat + 1)) (ds.drop (X.toNat + 1))
  else
    joinFraction [48] (List.replicate ((-X).toNat - 1) 48 ++ ds)

/-- The `%g` conversion (precision 6) of the positive value `num / den`. -/
def fmt_g_pos (num den : Nat) : List Byte :=
  g_layout (g_round num den).1 (g_round num den).2

/-- The `%g` conversion of a `double`. -/
def fmt_g (d : Double) : List Byte :=
  match d with
  | .finite neg m e =>
    (if neg then [45] else []) ++
      (if m = 0 then [48]
       else if 0 ≤ e then fmt_g_pos (m * 2 ^ e.toNat) 1
       else fmt_g_pos m (2 ^ (-e).toNat))
  | .inf neg => (if neg then [45] else []) ++ lit "inf"
  | .nan neg => (if neg then [45] else []) ++ lit "nan"

/-- An argument passed to `printf` after the format. -/
inductive Arg where
  /-- an `int` -/
  | int (v : Int)
  /-- a `double` -/
  | double (v : Double)
  /-- a `char*`: the bytes of memory from the pointed-to address onwards -/
  | str (mem : List Byte)

/-- Output of one conversion specifier applied to its argument; `none` where
the argument has the wrong type or a `%s` argument is not NUL-terminated
(undefined behaviour). -/
def convert (spec : Byte) (a : Arg) : Option (List Byte) :=
  match a with
  | .int v =>
    if spec == 100 || spec == 105 then some (fmt_d v)
    else if spec == 99 then some [toUChar v]
    else none
  | .double d => if spec == 103 then some (fmt_g d) else none
  | .str mem =>
    if spec == 115 && mem.contains 0 then some (mem.takeWhile (fun c => c != 0))
    else none

/-- A piece of output that `printf` writes in one go: a run of ordinary
characters of the format, or the result of one conversion. -/
inductive Piece where
  | text (bs : List Byte)
  | conv (bs : List Byte)
deriving DecidableEq, Repr

/-- The bytes of a piece. -/
def Piece.bytes : Piece → List Byte
  | .text bs => bs
  | .conv bs => bs

/-- An ordinary character in front of the pieces that follow it: it joins the
run it is part of. -/
def Piece.cons (c : Byte) : List Piece → List Piece
  | .text t :: ps => .text (c :: t) :: ps
  | ps => .text [c] :: ps

/-- The pieces `printf` produces for a format and its arguments: runs of
ordinary characters are copied, `%%` gives `%`, and `%` followed by one of
`d i c g s` converts the next argument.  Flags, widths, precisions and the other
conversions are outside this model (`none`), as is a missing argument. -/
def formatted : List Byte → List Arg → Option (List Piece)
  | [], _ => some []
  | c :: fmt, args =>
    if c == 37 then
      match fmt, args with
      | s :: fmt1, a :: as =>
        if s == 37 then (formatted fmt1 (a :: as)).map (fun r => .conv [37] :: r)
        else (convert s a).bind (fun o => (formatted fmt1 as).map (fun r => .conv o :: r))
      | s :: fmt1, [] =>
        if s == 37 then (formatted fmt1 []).map (fun r => .conv [37] :: r) else none
      | [], _ => none
    else (formatted fmt args).map (Piece.cons c)

/-- Transmission of the pieces, `done` bytes having been written by the call so
far: the return value and the bytes written.  The count of bytes written is an
`int`.  Following glibc, each piece is written and then added to the count; when
the count would pass `INT_MAX` the call stops there and returns `-1`
(`EOVERFLOW`), so the pieces after that one are not written.  (glibc writes the
sign and the digits of a number in separate steps; taking a conversion as one
piece gives the same bytes as long as the whole conversion fits the count, which
holds for every number printed after at most five bytes, as in `runtime.c`.) -/
def emit : List Piece → Nat → Int × List Byte
  | [], done => (done, [])
  | p :: ps, done =>
    if done + p.bytes.length ≤ 2147483647 then
      ((emit ps (done + p.bytes.length)).1, p.bytes ++ (emit ps (done + p.bytes.length)).2)
    else (-1, p.bytes)

/-- The call `printf(fmt, args...)`: appends the bytes transmitted to standard
output and returns their number, or `-1`. -/
def printf (fmt : List Byte) (args : List Arg) (w : World) : Option (Int × World) :=
  (formatted fmt args).map
    (fun ps => ((emit ps 0).1, { w with stdout := w.stdout ++ (emit ps 0).2 }))

/-! ## The functions of `runtime.c` that print -/

/-- The function `_print_int` of `runtime.c`:
```c
int _print_int(int x) {
  printf("Out: %i\n", x);
  return 0;
}
``` -/
def _print_int (x : Int) (w : World) : Option (Int × World) :=
  (printf (lit "Out: %i\n") [.int x] w).map (fun r => (0, r.2))

/-- The function `_print_float` of `runtime.c`:
```c
int _print_float(double x) {
  printf("Out: %g\n", x);
  return 0;
}
``` -/
def _print_float (x : Double) (w : World) : Option (Int × World) :=
  (printf (lit "Out: %g\n") [.double x] w).map (fun r => (0, r.2))

/-- The function `_print_char` of `runtime.c`:
```c
int _print_char(int x) {
  printf("%c", x);
  return 0;
}
``` -/
def _print_char (x : Int) (w : World) : Option (Int × World) :=
  (printf (lit "%c") [.int x] w).map (fun r => (0, r.2))

/-- The function `_print_str` of `runtime.c`:
```c
int _print_str(char* s) {
  printf("Out: %s\n", s);
  return 0;
}
```
The pointer `s` is given by the bytes of memory it points to. -/
def _print_str (s : List Byte) (w : World) : Option (Int × World) :=
  (printf (lit "Out: %s\n") [.str s] w).map (fun r => (0, r.2))

/-! ## Reference definitions used in the statements -/

/-- The signed decimal representation of an integer: a minus sign for a
negative number, then the decimal digits of the absolute value, most
significant first, without leading zeros (`0` is the single digit `0`). -/
def decimal (n : Int) : List Byte :=
  (if n < 0 then lit "-" else []) ++
    (if n = 0 then lit "0"
     else (Nat.digits 10 n.natAbs).reverse.map (fun d => Fin.ofNat (48 + d)))

/-- The integer denoted by an optional sign followed by decimal digit
characters, most significant first. -/
def tokenValue (sign ds : List Byte) : Int :=
  (if sign = [45] then -1 else 1) *
    (Nat.ofDigits (10 : Nat) ((ds.map (fun c => c.val - 48)).reverse) : Nat)

/-- Two calls of an operation in a row. -/
def twice (op : World → Option (Int × World)) (w : World) : Option (Int × World) :=
  (op w).bind (fun r => op r.2)

/-- Successive calls of `_gets_int`, one for each element of the list (the
element is the indeterminate initial content of the local `x` in that call);
gives the values returned, in order, and the final console state. -/
def gets_ints : List Int → World → List Int × World
  | [], w => ([], w)
  | x0 :: xs, w =>
    ((_gets_int x0 w).1 :: (gets_ints xs (_gets_int x0 w).2).1,
      (gets_ints xs (_gets_int x0 w).2).2)

/-- The integer nearest to `q`, the even one of the two when `q` lies half way. -/
def nearestEven (q : ℚ) : ℤ :=
  if q - ⌊q⌋ < 1 / 2 then ⌊q⌋
  else if 1 / 2 < q - ⌊q⌋ then ⌊q⌋ + 1
  else if ⌊q⌋ % 2 = 0 then ⌊q⌋ else ⌊q⌋ + 1

/-- The last `w` decimal digits of `n` as characters, most significant first,
leading zeros included. -/
def fixedDigits : Nat → Nat → List Byte
  | 0, _ => []
  | w + 1, n => fixedDigits w (n / 10) ++ [Fin.ofNat (48 + n % 10)]

/-- The fraction of a `%g` result from the last `p` digits of `n`: a decimal
point and those digits with the trailing zeros removed, or nothing when all of
them are zero. -/
def fraction (p n : Nat) : List Byte :=
  if (fixedDigits p n).rdropWhile (fun c => c == 48) = [] then []
  else 46 :: (fixedDigits p n).rdropWhile (fun c => c == 48)

/-- The number `sig * 10^(X-5)`, with `sig` of six digits, written as `%g` asks
with precision 6: in style `f` when `-4 ≤ X < 6` (the digits before the decimal
point are those of `sig / 10^(5-X)`, the `5 - X` digits after it the last ones of
`sig`), else in style `e` (one digit, five digits after the point, `e`, the sign
of `X` and at least two digits of `X`); in both the trailing zeros of the
fraction are removed, and the decimal point with them when none is left. -/
def general_layout (sig : Nat) (X : Int) : List Byte :=
  if -4 ≤ X ∧ X < 6 then
    decimal ((sig / 10 ^ (5 - X).toNat : Nat) : Int) ++ fraction (5 - X).toNat sig
  else
    decimal ((sig / 10 ^ 5 : Nat) : Int) ++ fraction 5 sig ++ lit "e"
      ++ (if X < 0 then lit "-" else lit "+")
      ++ (if X.natAbs < 10 then fixedDigits 2 X.natAbs else decimal (X.natAbs : Int))

/-- The positive rational `v` rounded to six significant decimal digits, as
significand from `10^5` to `10^6 - 1` and decimal exponent: with `k` the
exponent of `v` itself (`10^k ≤ v < 10^(k+1)`), `v / 10^(k-5)` is rounded to the
nearest integer, ties to even, and a result of `10^6` is renormalised. -/
def significand (v : ℚ) : Nat × Int :=
  if (nearestEven (v / (10 : ℚ) ^ (Int.log 10 v - 5))).toNat = 10 ^ 6
  then (10 ^ 5, Int.log 10 v + 1)
  else ((nearestEven (v / (10 : ℚ) ^ (Int.log 10 v - 5))).toNat, Int.log 10 v)

/-- The general format (`%g`, precision 6) of a `double`, in terms of its
value: a minus sign when the sign bit is set, then `0` for a zero and otherwise
the layout of the absolute value rounded to six significant digits. -/
def general_format : Double → List Byte
  | .finite neg m e =>
    (if neg then lit "-" else []) ++
      (if m = 0 then lit "0"
       else general_layout (significand ((m : ℚ) * (2 : ℚ) ^ e)).1
              (significand ((m : ℚ) * (2 : ℚ) ^ e)).2)
  | .inf neg => (if neg then lit "-" else []) ++ lit "inf"
  | .nan neg => (if neg then lit "-" else []) ++ lit "nan"

/-! ## Lemmas -/

theorem scale10_den_pos (num den : Nat) (s : Int) (hden : 0 < den) :
    0 < (scale10 num den s).2 := by
  unfold scale10
  split
  · exact Nat.mul_pos hden (Nat.pos_pow_of_pos _ (by norm_num))
  · exact hden

theorem scale10_val (num den : Nat) (s : Int) (hden : 0 < den) :
    ((scale10 num den s).1 : ℚ) / ((scale10 num den s).2 : ℚ)
      = ((num : ℚ) / den) / (10 : ℚ) ^ s := by
  have hd : (den : ℚ) ≠ 0 := by positivity
  unfold scale10
  split
  · rename_i h
    obtain ⟨n, rfl⟩ := Int.eq_ofNat_of_zero_le h
    simp only [Int.toNat_ofNat, Nat.cast_mul, Nat.cast_pow, Nat.cast_ofNat, zpow_natCast]
    rw [div_div]
  · rename_i h
    have h' : 0 ≤ -s := by omega
    obtain ⟨n, hn⟩ := Int.eq_ofNat_of_zero_le h'
    have hs : s = -(n : ℤ) := by omega
    subst hs
    simp only [neg_neg, Int.toNat_ofNat, Nat.cast_mul, Nat.cast_pow, Nat.cast_ofNat, zpow_neg,
      zpow_natCast]
    field_simp

theorem pow10Le_iff (num den : Nat) (k : Int) (hden : 0 < den) :
    pow10Le num den k = true ↔ (10 : ℚ) ^ k ≤ (num : ℚ) / den := by
  have h2 := scale10_den_pos num den k hden
  have hv := scale10_val num den k hden
  have hp : (0 : ℚ) < (10 : ℚ) ^ k := by positivity
  unfold pow10Le
  rw [decide_eq_true_iff]
  have h2q : (0 : ℚ) < ((scale10 num den k).2 : ℚ) := by exact_mod_cast h2
  rw [← Nat.cast_le (α := ℚ), ← one_le_div h2q, hv, le_div_iff₀ hp, one_mul]

theorem decExpUp_spec (num den : Nat) (hden : 0 < den) : ∀ (fuel : Nat) (k : Int),
    (10 : ℚ) ^ k ≤ (num : ℚ) / den → (num : ℚ) / den < (10 : ℚ) ^ (k + fuel + 1) →
    (10 : ℚ) ^ (decExpUp num den fuel k) ≤ (num : ℚ) / den ∧
      (num : ℚ) / den < (10 : ℚ) ^ (decExpUp num den fuel k + 1) ∧
      k ≤ decExpUp num den fuel k ∧ decExpUp num den fuel k ≤ k + fuel := by
  intro fuel
  induction fuel with
  | zero =>
    intro k h1 h2
    simp only [decExpUp]
    refine ⟨h1, ?_, le_refl _, by simp⟩
    simpa using h2
  | succ fuel ih =>
    intro k h1 h2
    simp only [decExpUp]
    by_cases hp : pow10Le num den (k + 1) = true
    · rw [if_pos hp]
      have h3 := (pow10Le_iff num den (k + 1) hden).mp hp
      have h4 : (num : ℚ) / den < (10 : ℚ) ^ (k + 1 + (fuel : ℤ) + 1) := by
        have e : k + 1 + (fuel : ℤ) + 1 = k + ((fuel + 1 : ℕ) : ℤ) + 1 := by push_cast; ring
        rw [e]; exact h2
      obtain ⟨a, b, c, d⟩ := ih (k + 1) h3 h4
      refine ⟨a, b, by omega, ?_⟩
      push_cast; omega
    · rw [if_neg hp]
      have h3 : ¬ (10 : ℚ) ^ (k + 1) ≤ (num : ℚ) / den :=
        fun h => hp ((pow10Le_iff num den (k + 1) hden).mpr h)
      refine ⟨h1, lt_of_not_le h3, le_refl _, ?_⟩
      push_cast; omega

theorem decExpDown_spec (num den : Nat) (hden : 0 < den) : ∀ (fuel : Nat) (k : Int),
    (num : ℚ) / den < (10 : ℚ) ^ (k + 1) → (10 : ℚ) ^ (k - fuel) ≤ (num : ℚ) / den →
    (10 : ℚ) ^ (decExpDown num den fuel k) ≤ (num : ℚ) / den ∧
      (num : ℚ) / den < (10 : ℚ) ^ (decExpDown num den fuel k + 1) ∧
      k - fuel ≤ decExpDown num den fuel k ∧ decExpDown num den fuel k ≤ k := by
  intro fuel
  induction fuel with
  | zero =>
    intro k h1 h2
    simp only [decExpDown]
    refine ⟨by simpa using h2, h1, by simp, le_refl _⟩
  | succ fuel ih =>
    intro k h1 h2
    simp only [decExpDown]
    by_cases hp : pow10Le num den k = true
    · rw [if_pos hp]
      refine ⟨(pow10Le_iff num den k hden).mp hp, h1, ?_, le_refl _⟩
      push_cast; omega
    · rw [if_neg hp]
      have h3 : (num : ℚ) / den < (10 : ℚ) ^ (k - 1 + 1) := by
        have : ¬ (10 : ℚ) ^ k ≤ (num : ℚ) / den :=
          fun h => hp ((pow10Le_iff num den k hden).mpr h)
        simpa using lt_of_not_le this
      have h4 : (10 : ℚ) ^ (k - 1 - (fuel : ℤ)) ≤ (num : ℚ) / den := by
        have e : k - 1 - (fuel : ℤ) = k - ((fuel + 1 : ℕ) : ℤ) := by push_cast; ring
        rw [e]; exact h2
      obtain ⟨a, b, c, d⟩ := ih (k - 1) h3 h4
      refine ⟨a, b, ?_, by omega⟩
      push_cast; omega

theorem decExp_spec (num den : Nat) (hden : 0 < den)
    (hlo : (10 : ℚ) ^ (-401 : ℤ) ≤ (num : ℚ) / den) (hhi : (num : ℚ) / den < (10 : ℚ) ^ (401 : ℤ)) :
    decExp num den = Int.log 10 ((num : ℚ) / den) ∧ -401 ≤ decExp num den ∧ decExp num den ≤ 400 := by
  have hpos : (0 : ℚ) < (num : ℚ) / den := lt_of_lt_of_le (by positivity) hlo
  have hdq : (0 : ℚ) < den := by exact_mod_cast hden
  have key : ∀ j : ℤ, (10 : ℚ) ^ j ≤ (num : ℚ) / den → (num : ℚ) / den < (10 : ℚ) ^ (j + 1) →
      j = Int.log 10 ((num : ℚ) / den) := by
    intro j h1 h2
    have a := (Int.zpow_le_iff_le_log (b := 10) (by norm_num) hpos).mp (by exact_mod_cast h1)
    have b := (Int.lt_zpow_iff_log_lt (b := 10) (by norm_num) hpos).mp (by exact_mod_cast h2)
    omega
  unfold decExp
  by_cases h : den ≤ num
  · rw [if_pos h]
    have h1 : (10 : ℚ) ^ (0 : ℤ) ≤ (num : ℚ) / den := by
      rw [zpow_zero, one_le_div hdq]; exact_mod_cast h
    obtain ⟨a, b, c, d⟩ := decExpUp_spec num den hden 400 0 h1 (by simpa using hhi)
    exact ⟨key _ a b, by omega, by simpa using d⟩
  · rw [if_neg h]
    have h1 : (num : ℚ) / den < (10 : ℚ) ^ ((-1 : ℤ) + 1) := by
      rw [neg_add_cancel, zpow_zero, div_lt_one hdq]; exact_mod_cast (not_le.mp h)
    obtain ⟨a, b, c, d⟩ := decExpDown_spec num den hden 400 (-1) h1 (by simpa using hlo)
    exact ⟨key _ a b, by simpa using c, by omega⟩


theorem roundHalfEven_eq (a b : Nat) (hb : 0 < b) :
    ((roundHalfEven a b : ℕ) : ℤ) = nearestEven ((a : ℚ) / b) := by
  have hbq : (0 : ℚ) < b := by exact_mod_cast hb
  have hfl : ⌊(a : ℚ) / b⌋ = ((a / b : ℕ) : ℤ) := by
    rw [Rat.floor_natCast_div_natCast]; norm_cast
  have hfr : (a : ℚ) / b - ((a / b : ℕ) : ℤ) = ((a % b : ℕ) : ℚ) / b := by
    have h := Nat.div_add_mod a b
    have hq : (a : ℚ) = (b : ℚ) * ((a / b : ℕ) : ℚ) + ((a % b : ℕ) : ℚ) := by exact_mod_cast h.symm
    rw [Int.cast_natCast, eq_div_iff hbq.ne', sub_mul, div_mul_cancel₀ _ hbq.ne']
    linarith
  have c1 : ((a % b : ℕ) : ℚ) / b < 1 / 2 ↔ 2 * (a % b) < b := by
    rw [div_lt_div_iff₀ hbq (by norm_num : (0 : ℚ) < 2)]
    constructor
    · intro h; have : ((2 * (a % b) : ℕ) : ℚ) < (b : ℕ) := by push_cast; linarith
      exact_mod_cast this
    · intro h; have : ((2 * (a % b) : ℕ) : ℚ) < (b : ℕ) := by exact_mod_cast h
      push_cast at this; linarith
  have c2 : 1 / 2 < ((a % b : ℕ) : ℚ) / b ↔ b < 2 * (a % b) := by
    rw [div_lt_div_iff₀ (by norm_num : (0 : ℚ) < 2) hbq]
    constructor
    · intro h; have : ((b : ℕ) : ℚ) < ((2 * (a % b) : ℕ) : ℚ) := by push_cast; linarith
      exact_mod_cast this
    · intro h; have : ((b : ℕ) : ℚ) < ((2 * (a % b) : ℕ) : ℚ) := by exact_mod_cast h
      push_cast at this; linarith
  have c3 : ((a / b : ℕ) : ℤ) % 2 = 0 ↔ (a / b) % 2 = 0 := by omega
  unfold nearestEven roundHalfEven
  rw [hfl, hfr]
  simp only [c1, c2, c3]
  split_ifs <;> push_cast <;> rfl

theorem nearestEven_bounds (q : ℚ) (lo hi : ℤ) (h1 : (lo : ℚ) ≤ q) (h2 : q < hi) :
    lo ≤ nearestEven q ∧ nearestEven q ≤ hi := by
  have a : lo ≤ ⌊q⌋ := Int.le_floor.mpr h1
  have b : ⌊q⌋ < hi := Int.floor_lt.mpr h2
  unfold nearestEven
  split_ifs <;> omega


theorem fixedDigits_length (w : Nat) : ∀ n, (fixedDigits w n).length = w := by
  induction w with
  | zero => intro n; rfl
  | succ w ih => intro n; simp [fixedDigits, ih]

theorem fixedDigits_add (a b : Nat) : ∀ n,
    fixedDigits (a + b) n = fixedDigits a (n / 10 ^ b) ++ fixedDigits b n := by
  induction b with
  | zero => intro n; simp [fixedDigits]
  | succ b ih =>
    intro n
    have e : a + (b + 1) = (a + b) + 1 := by omega
    rw [e, fixedDigits, ih, fixedDigits, List.append_assoc, Nat.div_div_eq_div_mul, pow_succ,
      Nat.mul_comm]

theorem fixedDigits_zero (w : Nat) : fixedDigits w 0 = List.replicate w 48 := by
  induction w with
  | zero => rfl
  | succ w ih =>
    rw [fixedDigits, Nat.zero_div, ih, List.replicate_succ']
    rfl

theorem utoa_digits (fuel : Nat) : ∀ (n : Nat) (acc : List Byte), 0 < n → n < 10 ^ fuel →
    utoa fuel n acc = (Nat.digits 10 n).reverse.map digitChar ++ acc := by
  induction fuel with
  | zero => intro n acc h0 h1; simp at h1; omega
  | succ fuel ih =>
    intro n acc h0 h1
    have hd : Nat.digits 10 n = (n % 10) :: Nat.digits 10 (n / 10) :=
      Nat.digits_def' (by norm_num) h0
    have hc : digitChar (n % 10) = digitChar n := by simp [digitChar]
    by_cases hq : n / 10 = 0
    · simp [utoa, hq, hd, hc]
    · have h2 : 0 < n / 10 := Nat.pos_of_ne_zero hq
      have h3 : n / 10 < 10 ^ fuel := by
        rw [pow_succ] at h1
        exact Nat.div_lt_of_lt_mul (by rw [Nat.mul_comm]; exact h1)
      simp [utoa, hq, hd, hc, ih (n / 10) (digitChar n :: acc) h2 h3]

theorem map_digitChar_digits (n : Nat) :
    (Nat.digits 10 n).reverse.map digitChar
      = (Nat.digits 10 n).reverse.map (fun d => (Fin.ofNat (48 + d) : Byte)) := by
  apply List.map_congr_left
  intro d hd
  have h : d < 10 := Nat.digits_lt_base (by norm_num) (List.mem_reverse.mp hd)
  simp [digitChar, Nat.mod_eq_of_lt h]

theorem decimal_natCast (n : Nat) (h : 0 < n) :
    decimal (n : Int) = (Nat.digits 10 n).reverse.map (fun d => (Fin.ofNat (48 + d) : Byte)) := by
  have h1 : ¬ ((n : Int) < 0) := by omega
  have h2 : ¬ ((n : Int) = 0) := by omega
  simp [decimal, h1, h2]

theorem utoa_eq_decimal (fuel n : Nat) (h0 : 0 < n) (h1 : n < 10 ^ fuel) :
    utoa fuel n [] = decimal (n : Int) := by
  rw [utoa_digits fuel n [] h0 h1, map_digitChar_digits, decimal_natCast n h0, List.append_nil]

theorem fmt_d_eq_decimal (n : Int) : fmt_d n = decimal n := by
  unfold fmt_d decimal
  by_cases h0 : n = 0
  · subst h0; decide
  · have hpos : 0 < n.natAbs := Int.natAbs_pos.mpr h0
    rw [utoa_digits _ _ _ hpos (Nat.lt_pow_self (by norm_num) _ |>.trans_le
      (Nat.pow_le_pow_right (by norm_num) (Nat.le_succ _))), map_digitChar_digits]
    have hm : lit "-" = ([45] : List Byte) := by decide
    simp [h0, hm]

theorem decimal_eq_fixedDigits (w : Nat) : ∀ n : Nat, 10 ^ w ≤ n → n < 10 ^ (w + 1) →
    decimal (n : Int) = fixedDigits (w + 1) n := by
  induction w with
  | zero =>
    intro n h1 h2
    have hn : 0 < n := by simpa using h1
    rw [decimal_natCast n hn, Nat.digits_of_lt 10 n (by omega) (by simpa using h2)]
    simp [fixedDigits, Nat.mod_eq_of_lt (by simpa using h2 : n < 10)]
  | succ w ih =>
    intro n h1 h2
    have hn : 0 < n := lt_of_lt_of_le (by positivity) h1
    have hd : Nat.digits 10 n = (n % 10) :: Nat.digits 10 (n / 10) :=
      Nat.digits_def' (by norm_num) hn
    have h3 : 10 ^ w ≤ n / 10 := by
      rw [Nat.le_div_iff_mul_le (by norm_num)]; rw [pow_succ] at h1; exact h1
    have h4 : n / 10 < 10 ^ (w + 1) := by
      rw [pow_succ] at h2
      exact Nat.div_lt_of_lt_mul (by rw [Nat.mul_comm]; exact h2)
    have h5 : 0 < n / 10 := lt_of_lt_of_le (by positivity) h3
    rw [decimal_natCast n hn, hd, fixedDigits, ← ih (n / 10) h3 h4, decimal_natCast _ h5]
    simp


theorem fixedDigits_take_drop (a b n : Nat) :
    (fixedDigits (a + b) n).take a = fixedDigits a (n / 10 ^ b) ∧
      (fixedDigits (a + b) n).drop a = fixedDigits b n := by
  rw [fixedDigits_add]
  have h := fixedDigits_length a (n / 10 ^ b)
  exact ⟨by rw [List.take_left' h], by rw [List.drop_left' h]⟩

theorem joinFraction_eq (ip : List Byte) (p n : Nat) :
    joinFraction ip (fixedDigits p n) = ip ++ fraction p n := by
  have e : stripZeros (fixedDigits p n)
      = (fixedDigits p n).rdropWhile (fun c => c == 48) := rfl
  unfold joinFraction fraction
  rw [e]
  by_cases h : (fixedDigits p n).rdropWhile (fun c => c == 48) = []
  · simp [h]
  · simp [h]

theorem utoa_six (sig : Nat) (h1 : 10 ^ 5 ≤ sig) (h2 : sig < 10 ^ 6) :
    utoa 6 sig [] = fixedDigits 6 sig := by
  rw [utoa_eq_decimal 6 sig (by omega) h2, decimal_eq_fixedDigits 5 sig h1 h2]

theorem exponent_digits (n : Nat) (h0 : 0 < n) (h1 : n < 10 ^ 4) :
    (if n < 10 then [48] else []) ++ utoa 4 n []
      = (if n < 10 then fixedDigits 2 n else decimal (n : Int)) := by
  rw [utoa_eq_decimal 4 n h0 h1]
  by_cases h : n < 10
  · rw [if_pos h, if_pos h, decimal_eq_fixedDigits 0 n (by simpa using h0) (by simpa using h),
      fixedDigits_add 1 1 n]
    have : n / 10 ^ 1 = 0 := by simp; omega
    rw [this]
    rfl
  · rw [if_neg h, if_neg h]; rfl

theorem g_layout_eq (sig : Nat) (X : Int) (h1 : 10 ^ 5 ≤ sig) (h2 : sig < 10 ^ 6)
    (hX : X.natAbs < 10 ^ 4) : g_layout sig X = general_layout sig X := by
  have hds := utoa_six sig h1 h2
  have le : lit "e" = ([101] : List Byte) := by decide
  have lm : lit "-" = ([45] : List Byte) := by decide
  have lp : lit "+" = ([43] : List Byte) := by decide
  have d0 : decimal ((0 : Nat) : Int) = ([48] : List Byte) := by decide
  unfold g_layout general_layout
  simp only [hds]
  by_cases hA : X < -4 ∨ 6 ≤ X
  · have hB : ¬ (-4 ≤ X ∧ X < 6) := by omega
    rw [if_pos hA, if_neg hB]
    have t := fixedDigits_take_drop 1 5 sig
    have e6 : (1 : Nat) + 5 = 6 := rfl
    rw [e6] at t
    rw [t.1, t.2, joinFraction_eq,
      ← decimal_eq_fixedDigits 0 (sig / 10 ^ 5) (by simp; omega) (by simp; omega)]
    have hx0 : 0 < X.natAbs := by omega
    have hexp := exponent_digits X.natAbs hx0 hX
    simp only [List.append_assoc] at hexp ⊢
    rw [hexp, le]
    by_cases hn : X < 0
    · simp [hn, lm]
    · simp [hn, lp]
  · have hB : -4 ≤ X ∧ X < 6 := by omega
    rw [if_neg hA, if_pos hB]
    by_cases h0 : 0 ≤ X
    · rw [if_pos h0]
      obtain ⟨x, rfl⟩ := Int.eq_ofNat_of_zero_le h0
      have hx : x < 6 := by omega
      have hp : (5 - (x : Int)).toNat = 5 - x := by omega
      have t := fixedDigits_take_drop (x + 1) (5 - x) sig
      have e6 : x + 1 + (5 - x) = 6 := by omega
      rw [e6] at t
      simp only [Int.toNat_ofNat, hp]
      rw [t.1, t.2, joinFraction_eq]
      congr 1
      symm
      apply decimal_eq_fixedDigits
      · rw [Nat.le_div_iff_mul_le (by positivity), ← pow_add]
        have : x + (5 - x) = 5 := by omega
        rw [this]; exact h1
      · rw [Nat.div_lt_iff_lt_mul (by positivity), ← pow_add]
        have : x + 1 + (5 - x) = 6 := by omega
        rw [this]; exact h2
    · rw [if_neg h0]
      obtain ⟨y, hy⟩ : ∃ y : Nat, X = -((y : Int) + 1) := ⟨(-X).toNat - 1, by omega⟩
      subst hy
      have hy4 : y < 4 := by omega
      have hp : (5 - -((y : Int) + 1)).toNat = y + 6 := by omega
      have hq : (- -((y : Int) + 1)).toNat - 1 = y := by omega
      rw [hp, hq]
      have hz : sig / 10 ^ (y + 6) = 0 := by
        apply Nat.div_eq_of_lt
        calc sig < 10 ^ 6 := h2
          _ ≤ 10 ^ (y + 6) := Nat.pow_le_pow_right (by norm_num) (by omega)
      have hs : fixedDigits (y + 6) sig = List.replicate y 48 ++ fixedDigits 6 sig := by
        rw [fixedDigits_add y 6 sig, Nat.div_eq_of_lt h2, fixedDigits_zero]
      rw [hz, d0, ← hs, joinFraction_eq]


theorem g_round_eq (num den : Nat) (hden : 0 < den)
    (hlo : (10 : ℚ) ^ (-401 : ℤ) ≤ (num : ℚ) / den)
    (hhi : (num : ℚ) / den < (10 : ℚ) ^ (401 : ℤ)) :
    g_round num den = significand ((num : ℚ) / den) ∧
      10 ^ 5 ≤ (g_round num den).1 ∧ (g_round num den).1 < 10 ^ 6 ∧
      (g_round num den).2.natAbs < 10 ^ 4 := by
  obtain ⟨hk, hk1, hk2⟩ := decExp_spec num den hden hlo hhi
  have hpos : (0 : ℚ) < (num : ℚ) / den := lt_of_lt_of_le (by positivity) hlo
  have hv1 : (10 : ℚ) ^ (decExp num den) ≤ (num : ℚ) / den := by
    rw [hk]; exact_mod_cast Int.zpow_log_le_self (b := 10) (by norm_num) hpos
  have hv2 : (num : ℚ) / den < (10 : ℚ) ^ (decExp num den + 1) := by
    rw [hk]; exact_mod_cast Int.lt_zpow_succ_log_self (b := 10) (by norm_num) ((num : ℚ) / den)
  have hb := scale10_den_pos num den (decExp num den - 5) hden
  have hq := scale10_val num den (decExp num den - 5) hden
  have hr := roundHalfEven_eq (scale10 num den (decExp num den - 5)).1
    (scale10 num den (decExp num den - 5)).2 hb
  rw [hq] at hr
  have hp5 : (0 : ℚ) < (10 : ℚ) ^ (decExp num den - 5) := by positivity
  have hq1 : (((10 ^ 5 : ℕ) : ℤ) : ℚ) ≤ (num : ℚ) / den / (10 : ℚ) ^ (decExp num den - 5) := by
    rw [le_div_iff₀ hp5]
    have : (((10 ^ 5 : ℕ) : ℤ) : ℚ) * (10 : ℚ) ^ (decExp num den - 5)
        = (10 : ℚ) ^ (decExp num den) := by
      push_cast
      have e : (100000 : ℚ) = (10 : ℚ) ^ (5 : ℤ) := by norm_num
      rw [e, ← zpow_add₀ (by norm_num)]
      congr 1; ring
    rw [this]; exact hv1
  have hq2 : (num : ℚ) / den / (10 : ℚ) ^ (decExp num den - 5) < (((10 ^ 6 : ℕ) : ℤ) : ℚ) := by
    rw [div_lt_iff₀ hp5]
    have : (((10 ^ 6 : ℕ) : ℤ) : ℚ) * (10 : ℚ) ^ (decExp num den - 5)
        = (10 : ℚ) ^ (decExp num den + 1) := by
      push_cast
      have e : (1000000 : ℚ) = (10 : ℚ) ^ (6 : ℤ) := by norm_num
      rw [e, ← zpow_add₀ (by norm_num)]
      congr 1; ring
    rw [this]; exact hv2
  obtain ⟨b1, b2⟩ := nearestEven_bounds _ _ _ hq1 hq2
  rw [← hr] at b1 b2
  have b1' : 10 ^ 5 ≤ roundHalfEven (scale10 num den (decExp num den - 5)).1
      (scale10 num den (decExp num den - 5)).2 := by exact_mod_cast b1
  have b2' : roundHalfEven (scale10 num den (decExp num den - 5)).1
      (scale10 num den (decExp num den - 5)).2 ≤ 10 ^ 6 := by exact_mod_cast b2
  have hnat : (nearestEven ((num : ℚ) / den / (10 : ℚ) ^ (decExp num den - 5))).toNat
      = roundHalfEven (scale10 num den (decExp num den - 5)).1
          (scale10 num den (decExp num den - 5)).2 := by
    rw [← hr, Int.toNat_natCast]
  unfold g_round significand
  rw [← hk, hnat]
  simp only
  by_cases hd : roundHalfEven (scale10 num den (decExp num den - 5)).1
      (scale10 num den (decExp num den - 5)).2 = 1000000
  · have hd' : roundHalfEven (scale10 num den (decExp num den - 5)).1
        (scale10 num den (decExp num den - 5)).2 = 10 ^ 6 := by rw [hd]; norm_num
    rw [if_pos hd, if_pos hd']
    refine ⟨by norm_num, by norm_num, by norm_num, ?_⟩
    simp only; omega
  · have hd' : ¬ roundHalfEven (scale10 num den (decExp num den - 5)).1
        (scale10 num den (decExp num den - 5)).2 = 10 ^ 6 := by
      intro h; apply hd; rw [h]; norm_num
    rw [if_neg hd, if_neg hd']
    refine ⟨rfl, b1', ?_, ?_⟩
    · simp only; have : (10 : ℕ) ^ 6 = 1000000 := by norm_num
      omega
    · simp only; omega


theorem fmt_g_pos_eq (num den : Nat) (hden : 0 < den)
    (hlo : (10 : ℚ) ^ (-401 : ℤ) ≤ (num : ℚ) / den)
    (hhi : (num : ℚ) / den < (10 : ℚ) ^ (401 : ℤ)) :
    fmt_g_pos num den = general_layout (significand ((num : ℚ) / den)).1
      (significand ((num : ℚ) / den)).2 := by
  obtain ⟨h, h1, h2, h3⟩ := g_round_eq num den hden hlo hhi
  unfold fmt_g_pos
  rw [g_layout_eq _ _ h1 h2 h3, h]

theorem double_range (m : Nat) (e : Int) (hm0 : m ≠ 0) (hm : m < 2 ^ 53) (he1 : -1074 ≤ e)
    (he2 : e ≤ 971) :
    (10 : ℚ) ^ (-401 : ℤ) ≤ (m : ℚ) * (2 : ℚ) ^ e ∧ (m : ℚ) * (2 : ℚ) ^ e < (10 : ℚ) ^ (401 : ℤ) := by
  have hm1 : (1 : ℚ) ≤ m := by exact_mod_cast Nat.one_le_iff_ne_zero.mpr hm0
  have hm2 : (m : ℚ) < (2 : ℚ) ^ (53 : ℤ) := by
    have h53 : (2 : ℚ) ^ (53 : ℤ) = (2 : ℚ) ^ (53 : ℕ) := by norm_cast
    rw [h53]
    exact_mod_cast hm
  have hp : (0 : ℚ) < (2 : ℚ) ^ e := by positivity
  have hlo2 : (2 : ℚ) ^ (-1074 : ℤ) ≤ (2 : ℚ) ^ e := zpow_le_zpow_right₀ (by norm_num) he1
  have hhi2 : (2 : ℚ) ^ e ≤ (2 : ℚ) ^ (971 : ℤ) := zpow_le_zpow_right₀ (by norm_num) he2
  constructor
  · calc (10 : ℚ) ^ (-401 : ℤ) ≤ (2 : ℚ) ^ (-1074 : ℤ) := by
          rw [zpow_neg, zpow_neg]
          apply inv_anti₀ (by positivity)
          norm_num
      _ ≤ (2 : ℚ) ^ e := hlo2
      _ = 1 * (2 : ℚ) ^ e := (one_mul _).symm
      _ ≤ (m : ℚ) * (2 : ℚ) ^ e := by apply mul_le_mul_of_nonneg_right hm1 hp.le
  · calc (m : ℚ) * (2 : ℚ) ^ e < (2 : ℚ) ^ (53 : ℤ) * (2 : ℚ) ^ e := by
          apply mul_lt_mul_of_pos_right hm2 hp
      _ ≤ (2 : ℚ) ^ (53 : ℤ) * (2 : ℚ) ^ (971 : ℤ) := by
          apply mul_le_mul_of_nonneg_left hhi2 (by positivity)
      _ ≤ (10 : ℚ) ^ (401 : ℤ) := by norm_num

theorem fmt_g_eq_general (f : Double) (hf : f.isFiniteValue) : fmt_g f = general_format f := by
  cases f with
  | inf neg => exact absurd hf (by simp [Double.isFiniteValue])
  | nan neg => exact absurd hf (by simp [Double.isFiniteValue])
  | finite neg m e =>
    obtain ⟨hm, he1, he2⟩ := hf
    have lm : lit "-" = ([45] : List Byte) := by decide
    have l0 : lit "0" = ([48] : List Byte) := by decide
    simp only [fmt_g, general_format]
    rw [lm, l0]
    congr 1
    by_cases hm0 : m = 0
    · rw [if_pos hm0, if_pos hm0]
    · rw [if_neg hm0, if_neg hm0]
      obtain ⟨hlo, hhi⟩ := double_range m e hm0 hm he1 he2
      by_cases h0 : 0 ≤ e
      · rw [if_pos h0]
        obtain ⟨n, rfl⟩ := Int.eq_ofNat_of_zero_le h0
        have hv : (((m * 2 ^ n : ℕ) : ℚ)) / ((1 : ℕ) : ℚ) = (m : ℚ) * (2 : ℚ) ^ (n : ℤ) := by
          push_cast; simp
        rw [Int.toNat_ofNat, fmt_g_pos_eq _ 1 (by norm_num) (by rw [hv]; exact hlo)
          (by rw [hv]; exact hhi), hv]
      · rw [if_neg h0]
        obtain ⟨n, hn⟩ : ∃ n : ℕ, e = -(n : ℤ) := ⟨(-e).toNat, by omega⟩
        subst hn
        have hv : ((m : ℕ) : ℚ) / ((2 ^ n : ℕ) : ℚ) = (m : ℚ) * (2 : ℚ) ^ (-(n : ℤ)) := by
          push_cast
          rw [zpow_neg, zpow_natCast, div_eq_mul_inv]
        have hn' : (- -(n : ℤ)).toNat = n := by omega
        rw [hn', fmt_g_pos_eq _ (2 ^ n) (by positivity) (by rw [hv]; exact hlo)
          (by rw [hv]; exact hhi), hv]

theorem span_stop (p : Byte → Bool) (l r : List Byte) (hl : ∀ c ∈ l, p c = true)
    (hr : ∀ c t, r = c :: t → p c = false) :
    (l ++ r).takeWhile p = l ∧ (l ++ r).dropWhile p = r := by
  induction l with
  | nil =>
    cases r with
    | nil => simp
    | cons c t => simp [hr c t rfl]
  | cons a t ih =>
    have ha : p a = true := hl a (by simp)
    have := ih (fun c hc => hl c (by simp [hc]))
    simp [List.takeWhile, List.dropWhile, ha, this.1, this.2]

theorem digitsVal_acc (ds : List Byte) : ∀ acc : Nat,
    digitsVal ds acc
      = acc * 10 ^ ds.length
        + Nat.ofDigits (10 : Nat) ((ds.map (fun c => c.val - 48)).reverse) := by
  induction ds with
  | nil => intro acc; simp [digitsVal]
  | cons c t ih =>
    intro acc
    rw [digitsVal, ih]
    simp only [List.map_cons, List.reverse_cons, List.length_cons, Nat.ofDigits_append,
      Nat.ofDigits_singleton, List.length_reverse, List.length_map]
    ring

theorem storeInt_of_isInt (v : Int) (h : isInt v) : storeInt v = v := by
  obtain ⟨h1, h2⟩ := h
  simp only [INT_MIN, INT_MAX] at h1 h2
  have e1 : min LONG_MAX v = v := min_eq_right (by simp only [LONG_MAX]; omega)
  have e2 : max LONG_MIN v = v := max_eq_right (by simp only [LONG_MIN]; omega)
  simp only [storeInt, e1, e2, wrapInt, INT_MIN]
  omega


/-- On this host a token one above `INT_MAX` is stored wrapped around and the
scan still succeeds; ISO C leaves the case undefined. -/
theorem gets_int_above_int_max :
    _gets_int 0 ⟨lit "2147483648", []⟩ = (-2147483648, ⟨[], []⟩) := by
  decide

theorem digit_facts : ∀ c : Byte, isdigit c = true → isspace c = false ∧ c ≠ 43 ∧ c ≠ 45 := by
  decide

theorem scanf_d_nil (x : Int) (inp : List Byte) (h : inp.dropWhile isspace = []) :
    scanf_d inp x = ⟨EOF, x, []⟩ := by
  unfold scanf_d
  rw [h]

theorem scanf_d_cons (x : Int) (inp : List Byte) (c : Byte) (cs t ds rest : List Byte)
    (h : inp.dropWhile isspace = c :: cs)
    (ht : t = if c = 45 ∨ c = 43 then cs else c :: cs)
    (h1 : t.takeWhile isdigit = ds) (h2 : t.dropWhile isdigit = rest) :
    scanf_d inp x =
      if ds = [] then ⟨0, x, rest⟩
      else ⟨1, storeInt (if c = 45 then -((digitsVal ds 0 : Nat) : Int)
                         else (digitsVal ds 0 : Nat)), rest⟩ := by
  subst ht h1 h2
  unfold scanf_d
  rw [h]
  simp only [List.isEmpty_iff, beq_iff_eq, Bool.or_eq_true]

theorem tokenValue_eq (sign ds : List Byte) :
    tokenValue sign ds = (if sign = [45] then -1 else 1) * ((digitsVal ds 0 : Nat) : Int) := by
  simp [tokenValue, digitsVal_acc]

/-- The result of `scanf("%d", &x)` on an input split into white space, an
optional sign, the maximal digit run and the remainder. -/
theorem scanf_d_split (x : Int) (ws sign ds rest : List Byte)
    (hws : ∀ c ∈ ws, isspace c = true)
    (hsign : sign = [] ∨ sign = [43] ∨ sign = [45])
    (hds : ∀ c ∈ ds, isdigit c = true)
    (hrest0 : ∀ c ∈ rest.head?, isdigit c = false)
    (hcanon0 : sign = [] → ds = [] → ∀ c ∈ rest.head?,
      isspace c = false ∧ c ≠ 43 ∧ c ≠ 45) :
    scanf_d (ws ++ sign ++ ds ++ rest) x =
      if ds = [] then (if sign = [] ∧ rest = [] then ⟨EOF, x, []⟩ else ⟨0, x, rest⟩)
      else ⟨1, storeInt (tokenValue sign ds), rest⟩ := by
  have hrest : ∀ c t, rest = c :: t → isdigit c = false := by
    intro c t e; subst e; exact hrest0 c (by simp)
  have hcanon : sign = [] → ds = [] → ∀ c t, rest = c :: t →
      isspace c = false ∧ c ≠ 43 ∧ c ≠ 45 := by
    intro h1 h2 c t e; subst e; exact hcanon0 h1 h2 c (by simp)
  have hspan := span_stop isdigit ds rest hds hrest
  rw [tokenValue_eq]
  rcases hsign with hs | hs | hs
  · -- no sign
    subst hs
    cases ds with
    | nil =>
      cases rest with
      | nil =>
        have hd : (ws ++ [] ++ [] ++ ([] : List Byte)).dropWhile isspace = [] := by
          have := (span_stop isspace ws [] hws (by intro c t h; cases h)).2
          simpa using this
        rw [scanf_d_nil x _ hd]; simp
      | cons c t =>
        obtain ⟨h1, h2, h3⟩ := hcanon rfl rfl c t rfl
        have hd : (ws ++ [] ++ [] ++ c :: t).dropWhile isspace = c :: t := by
          have := (span_stop isspace ws (c :: t) hws
            (by intro c1 t1 h; cases h; exact h1)).2
          simpa using this
        rw [scanf_d_cons x _ c t (c :: t) [] (c :: t) hd (by simp [h2, h3])
          (by simpa using hspan.1) (by simpa using hspan.2)]
        simp
    | cons d ds1 =>
      have hdg : isdigit d = true := hds d (by simp)
      obtain ⟨h1, h2, h3⟩ := digit_facts d hdg
      have hd : (ws ++ [] ++ d :: ds1 ++ rest).dropWhile isspace = d :: (ds1 ++ rest) := by
        have := (span_stop isspace ws (d :: (ds1 ++ rest)) hws
          (by intro c1 t1 h; cases h; exact h1)).2
        simpa using this
      rw [scanf_d_cons x _ d (ds1 ++ rest) (d :: (ds1 ++ rest)) (d :: ds1) rest hd
        (by simp [h2, h3]) (by simpa using hspan.1) (by simpa using hspan.2)]
      simp [h3]
  · -- plus sign
    subst hs
    have hd : (ws ++ [43] ++ ds ++ rest).dropWhile isspace = 43 :: (ds ++ rest) := by
      have := (span_stop isspace ws (43 :: (ds ++ rest)) hws
        (by intro c1 t1 h; cases h; decide)).2
      simpa using this
    rw [scanf_d_cons x _ 43 (ds ++ rest) (ds ++ rest) ds rest hd (by simp) hspan.1 hspan.2]
    have h45 : ¬ ((43 : Byte) = 45) := by decide
    have h45l : ¬ ([43] : List Byte) = [45] := by decide
    simp [h45, h45l]
  · -- minus sign
    subst hs
    have hd : (ws ++ [45] ++ ds ++ rest).dropWhile isspace = 45 :: (ds ++ rest) := by
      have := (span_stop isspace ws (45 :: (ds ++ rest)) hws
        (by intro c1 t1 h; cases h; decide)).2
      simpa using this
    rw [scanf_d_cons x _ 45 (ds ++ rest) (ds ++ rest) ds rest hd (by simp) hspan.1 hspan.2]
    simp


theorem scanf_d_shape (inp : List Byte) :
    (∀ x, scanf_d inp x = ⟨EOF, x, []⟩) ∨ (∃ rest, ∀ x, scanf_d inp x = ⟨0, x, rest⟩) ∨
      (∃ v rest, ∀ x, scanf_d inp x = ⟨1, v, rest⟩) := by
  cases h : inp.dropWhile isspace with
  | nil => exact Or.inl (fun x => scanf_d_nil x inp h)
  | cons c cs =>
    by_cases hds : (if c = 45 ∨ c = 43 then cs else c :: cs).takeWhile isdigit = []
    · refine Or.inr (Or.inl
        ⟨(if c = 45 ∨ c = 43 then cs else c :: cs).dropWhile isdigit, fun x => ?_⟩)
      rw [scanf_d_cons x inp c cs _ _ _ h rfl rfl rfl, if_pos hds]
    · refine Or.inr (Or.inr ⟨storeInt (if c = 45
          then -((digitsVal ((if c = 45 ∨ c = 43 then cs else c :: cs).takeWhile isdigit) 0 : Nat) : Int)
          else (digitsVal ((if c = 45 ∨ c = 43 then cs else c :: cs).takeWhile isdigit) 0 : Nat)),
        (if c = 45 ∨ c = 43 then cs else c :: cs).dropWhile isdigit, fun x => ?_⟩)
      rw [scanf_d_cons x inp c cs _ _ _ h rfl rfl rfl, if_neg hds]

theorem scanf_d_ret (inp : List Byte) (x : Int) :
    ((scanf_d inp x).ret = 1 ∨ (scanf_d inp x).ret = 0 ∨ (scanf_d inp x).ret = EOF) ∧
    ∀ y, (scanf_d inp y).ret = (scanf_d inp x).ret ∧ (scanf_d inp y).rest = (scanf_d inp x).rest ∧
      ((scanf_d inp x).ret = 1 → (scanf_d inp y).x = (scanf_d inp x).x) := by
  rcases scanf_d_shape inp with h | ⟨rest, h⟩ | ⟨v, rest, h⟩
  · refine ⟨?_, fun y => ?_⟩
    · rw [h]; simp
    · rw [h x, h y]; simp [EOF]
  · refine ⟨?_, fun y => ?_⟩
    · rw [h]; simp
    · rw [h x, h y]; simp
  · refine ⟨?_, fun y => ?_⟩
    · rw [h]; simp
    · rw [h x, h y]; simp

theorem gets_int_eq (x0 : Int) (w : World) :
    _gets_int x0 w =
      (if (scanf_d w.stdin x0).ret = 1 then (scanf_d w.stdin x0).x else 0,
        ⟨(scanf_d w.stdin x0).rest, w.stdout⟩) := by
  unfold _gets_int
  by_cases h : (scanf_d w.stdin x0).ret = 1
  · simp [h]
  · simp [h]

theorem utoa_length_le (fuel : Nat) : ∀ (n : Nat) (acc : List Byte),
    (utoa fuel n acc).length ≤ fuel + acc.length := by
  induction fuel with
  | zero => intro n acc; simp [utoa]
  | succ fuel ih =>
    intro n acc
    rw [utoa]
    split
    · simp; omega
    · have := ih (n / 10) (digitChar n :: acc)
      simp at this; omega

theorem fmt_d_length_le (n : Int) (hn : isInt n) : (fmt_d n).length ≤ 11 := by
  obtain ⟨h1, h2⟩ := hn
  simp only [INT_MIN, INT_MAX] at h1 h2
  have hb : n.natAbs < 10 ^ 10 := by norm_num; omega
  have hu : (utoa (n.natAbs + 1) n.natAbs []).length ≤ 10 := by
    by_cases h0 : n.natAbs = 0
    · rw [h0]; decide
    · have hp : 0 < n.natAbs := Nat.pos_of_ne_zero h0
      rw [utoa_digits _ _ _ hp ((Nat.lt_pow_self (by norm_num) _).trans_le
        (Nat.pow_le_pow_right (by norm_num) (Nat.le_succ _))),
        ← utoa_digits 10 _ [] hp hb]
      simpa using utoa_length_le 10 n.natAbs []
  unfold fmt_d
  split <;> simp <;> omega

theorem joinFraction_length_le (ip fp : List Byte) :
    (joinFraction ip fp).length ≤ ip.length + fp.length + 1 := by
  have h : (stripZeros fp).length ≤ fp.length :=
    (List.rdropWhile_prefix (fun c => c == 48) fp).length_le
  unfold joinFraction
  split
  · omega
  · simp; omega

theorem take_drop_length (ds : List Byte) (k : Nat) :
    (ds.take k).length + (ds.drop k).length = ds.length := by
  rw [← List.length_append, List.take_append_drop]

theorem g_layout_length_le (sig : Nat) (X : Int) : (g_layout sig X).length ≤ 14 := by
  have hds : (utoa 6 sig []).length ≤ 6 := by simpa using utoa_length_le 6 sig []
  have hex : (utoa 4 X.natAbs []).length ≤ 4 := by simpa using utoa_length_le 4 X.natAbs []
  have hz : (if X.natAbs < 10 then [(48 : Byte)] else []).length ≤ 1 := by
    split <;> simp
  unfold g_layout
  simp only
  by_cases hA : X < -4 ∨ 6 ≤ X
  · rw [if_pos hA]
    have h := joinFraction_length_le ((utoa 6 sig []).take 1) ((utoa 6 sig []).drop 1)
    have ht := take_drop_length (utoa 6 sig []) 1
    simp only [List.length_append, List.length_cons, List.length_nil]
    omega
  · rw [if_neg hA]
    by_cases h0 : 0 ≤ X
    · rw [if_pos h0]
      have h := joinFraction_length_le ((utoa 6 sig []).take (X.toNat + 1))
        ((utoa 6 sig []).drop (X.toNat + 1))
      have ht := take_drop_length (utoa 6 sig []) (X.toNat + 1)
      omega
    · rw [if_neg h0]
      have h := joinFraction_length_le [48]
        (List.replicate ((-X).toNat - 1) 48 ++ utoa 6 sig [])
      simp only [List.length_append, List.length_replicate, List.length_cons,
        List.length_nil] at h
      omega

theorem fmt_g_length_le (f : Double) : (fmt_g f).length ≤ 15 := by
  cases f with
  | inf neg => cases neg <;> decide
  | nan neg => cases neg <;> decide
  | finite neg m e =>
    have h1 := g_layout_length_le (g_round (m * 2 ^ e.toNat) 1).1 (g_round (m * 2 ^ e.toNat) 1).2
    have h2 := g_layout_length_le (g_round m (2 ^ (-e).toNat)).1 (g_round m (2 ^ (-e).toNat)).2
    have hs : (if neg = true then [(45 : Byte)] else []).length ≤ 1 := by split <;> simp
    simp only [fmt_g, fmt_g_pos, List.length_append]
    by_cases hm : m = 0
    · rw [if_pos hm]; simp only [List.length_cons, List.length_nil]; omega
    · rw [if_neg hm]
      by_cases he : 0 ≤ e
      · rw [if_pos he]; omega
      · rw [if_neg he]; omega

theorem emit_out (o : List Byte) :
    (emit [.text (lit "Out: "), .conv o, .text (lit "\n")] 0).2
      = lit "Out: " ++ (o ++ if o.length ≤ 2147483642 then lit "\n" else []) := by
  have h5 : (lit "Out: ").length = 5 := rfl
  simp only [emit, Piece.bytes, h5]
  by_cases h : o.length ≤ 2147483642
  · have h' : 0 + 5 + o.length ≤ 2147483647 := by omega
    simp [h, h']
    split <;> rfl
  · have h' : ¬ (0 + 5 + o.length ≤ 2147483647) := by omega
    simp [h, h']

theorem print_int_emit (n : Int) (w : World) :
    _print_int n w = some (0, ⟨w.stdin, w.stdout ++
      (emit [.text (lit "Out: "), .conv (fmt_d n), .text (lit "\n")] 0).2⟩) :=
  rfl

theorem print_float_emit (f : Double) (w : World) :
    _print_float f w = some (0, ⟨w.stdin, w.stdout ++
      (emit [.text (lit "Out: "), .conv (fmt_g f), .text (lit "\n")] 0).2⟩) :=
  rfl

theorem print_int_eq (n : Int) (hn : isInt n) (w : World) :
    _print_int n w = some (0, ⟨w.stdin, w.stdout ++ (lit "Out: " ++ (fmt_d n ++ lit "\n"))⟩) := by
  have h := fmt_d_length_le n hn
  rw [print_int_emit, emit_out, if_pos (by omega)]

theorem print_float_eq (f : Double) (w : World) :
    _print_float f w = some (0, ⟨w.stdin, w.stdout ++ (lit "Out: " ++ (fmt_g f ++ lit "\n"))⟩) := by
  have h := fmt_g_length_le f
  rw [print_float_emit, emit_out, if_pos (by omega)]

theorem print_char_eq (c : Int) (w : World) :
    _print_char c w = some (0, ⟨w.stdin, w.stdout ++ [toUChar c]⟩) :=
  rfl

theorem takeWhile_ne_zero (s rest : List Byte) (h : ∀ c ∈ s, c ≠ 0) :
    (s ++ 0 :: rest).takeWhile (fun c => c != 0) = s := by
  have := (span_stop (fun c => c != 0) s (0 :: rest) (by simpa using h)
    (by intro c t h; cases h; decide)).1
  simpa using this

theorem print_str_convert (mem : List Byte) (w : World) :
    _print_str mem w = (convert 115 (.str mem)).map
      (fun o => (0, ⟨w.stdin, w.stdout ++
        (emit [.text (lit "Out: "), .conv o, .text (lit "\n")] 0).2⟩)) := by
  show Option.map _ (Option.map _ (Option.map _ (Option.map _ (Option.map _ (Option.map _
    (Option.map _ (Option.bind (convert 115 (.str mem)) _))))))) = _
  generalize convert 115 (.str mem) = r
  cases r <;> rfl

theorem print_str_eq (mem : List Byte) (h : 0 ∈ mem) (w : World) :
    _print_str mem w = some (0, ⟨w.stdin, w.stdout ++
      (lit "Out: " ++ (mem.takeWhile (fun c => c != 0) ++
        if (mem.takeWhile (fun c => c != 0)).length ≤ 2147483642 then lit "\n" else []))⟩) := by
  have hc : convert 115 (.str mem) = some (mem.takeWhile (fun c => c != 0)) := by
    simp [convert, h]
  rw [print_str_convert, hc, Option.map_some', emit_out]

theorem toUChar_val (x : Int) : ((toUChar x).val : Int) = x % 256 := by
  have h0 : 0 ≤ x % 256 := Int.emod_nonneg _ (by norm_num)
  have h1 : x % 256 < 256 := Int.emod_lt_of_pos _ (by norm_num)
  simp only [toUChar, Fin.ofNat, Nat.succ_eq_add_one]
  omega

theorem twice_append (op : World → Option (Int × World)) (out : List Byte)
    (h : ∀ w, op w = some (0, ⟨w.stdin, w.stdout ++ out⟩)) (w : World) :
    twice op w = some (0, ⟨w.stdin, w.stdout ++ out ++ out⟩) := by
  simp [twice, h]


theorem head_dropWhile_false (p : Byte → Bool) (l : List Byte) :
    ∀ c ∈ (l.dropWhile p).head?, p c = false := by
  induction l with
  | nil => simp
  | cons a t ih =>
    by_cases ha : p a = true
    · simpa [List.dropWhile, ha] using ih
    · simp [List.dropWhile, ha]

theorem dropWhile_of_takeWhile_nil (p : Byte → Bool) (l : List Byte)
    (h : l.takeWhile p = []) : l.dropWhile p = l := by
  have := List.takeWhile_append_dropWhile p l
  rw [h] at this
  simpa using this

/-- Every input splits into white space, an optional sign, a maximal digit run
and a remainder in the way `gets_int_token` asks for. -/
theorem token_split_exists (inp : List Byte) :
    ∃ ws sign ds rest, inp = ws ++ sign ++ ds ++ rest
      ∧ (∀ c ∈ ws, isspace c = true)
      ∧ (sign = [] ∨ sign = [43] ∨ sign = [45])
      ∧ (∀ c ∈ ds, isdigit c = true)
      ∧ (∀ c ∈ rest.head?, isdigit c = false)
      ∧ (sign = [] → ds = [] → ∀ c ∈ rest.head?, isspace c = false ∧ c ≠ 43 ∧ c ≠ 45) := by
  have hsplit := List.takeWhile_append_dropWhile isspace inp
  have hws : ∀ c ∈ inp.takeWhile isspace, isspace c = true :=
    fun c hc => List.mem_takeWhile_imp hc
  have hhead := head_dropWhile_false isspace inp
  cases hr : inp.dropWhile isspace with
  | nil =>
    refine ⟨inp.takeWhile isspace, [], [], [], ?_, hws, Or.inl rfl, by simp, by simp, by simp⟩
    rw [hr] at hsplit
    simpa using hsplit.symm
  | cons c cs =>
    rw [hr] at hsplit hhead
    have hc : isspace c = false := hhead c (by simp)
    by_cases h43 : c = 43
    · refine ⟨inp.takeWhile isspace, [43], cs.takeWhile isdigit, cs.dropWhile isdigit, ?_, hws,
        Or.inr (Or.inl rfl), fun d hd => List.mem_takeWhile_imp hd,
        head_dropWhile_false isdigit cs, by simp⟩
      rw [List.append_assoc, List.append_assoc, List.takeWhile_append_dropWhile, ← h43]
      simpa using hsplit.symm
    · by_cases h45 : c = 45
      · refine ⟨inp.takeWhile isspace, [45], cs.takeWhile isdigit, cs.dropWhile isdigit, ?_, hws,
          Or.inr (Or.inr rfl), fun d hd => List.mem_takeWhile_imp hd,
          head_dropWhile_false isdigit cs, by simp⟩
        rw [List.append_assoc, List.append_assoc, List.takeWhile_append_dropWhile, ← h45]
        simpa using hsplit.symm
      · refine ⟨inp.takeWhile isspace, [], (c :: cs).takeWhile isdigit,
          (c :: cs).dropWhile isdigit, ?_, hws, Or.inl rfl,
          fun d hd => List.mem_takeWhile_imp hd, head_dropWhile_false isdigit (c :: cs), ?_⟩
        · rw [List.append_assoc, List.append_assoc, List.takeWhile_append_dropWhile]
          simpa using hsplit.symm
        · intro _ hds
          rw [dropWhile_of_takeWhile_nil isdigit (c :: cs) hds]
          intro d hd
          have : d = c := by simpa using hd.symm
          subst this
          exact ⟨hc, h43, h45⟩


theorem print_str_nul_free (s after : List Byte) (hs : ∀ c ∈ s, c ≠ 0) (w : World) :
    _print_str (s ++ 0 :: after) w = some (0, ⟨w.stdin, w.stdout ++
      (lit "Out: " ++ (s ++ if s.length ≤ 2147483642 then lit "\n" else []))⟩) := by
  rw [print_str_eq _ (by simp), takeWhile_ne_zero s after hs]

/-! ## The claims -/

/-- C1: `_gets_int` returns the integer stored by the decimal scan when the
scan succeeds (returns 1) and 0 when it fails (returns 0 or `EOF`); the only
effect is on the input stream (nothing is written), and the result never
depends on the indeterminate initial content of the local.  It returns 42 on
`"42\n"`, 0 on `"abc"`, 0 on the empty stream and -7 on `"  -7"`. -/
theorem gets_int_parsed_or_zero (x0 : Int) (w : World) :
    (_gets_int x0 w).1
        = (if (scanf_d w.stdin x0).ret = 1 then (scanf_d w.stdin x0).x else 0)
    ∧ ((scanf_d w.stdin x0).ret = 1 ∨ (scanf_d w.stdin x0).ret = 0
        ∨ (scanf_d w.stdin x0).ret = EOF)
    ∧ (_gets_int x0 w).2 = ⟨(scanf_d w.stdin x0).rest, w.stdout⟩
    ∧ _gets_int x0 w = _gets_int 0 w
    ∧ (_gets_int x0 ⟨lit "42\n", w.stdout⟩).1 = 42
    ∧ (_gets_int x0 ⟨lit "abc", w.stdout⟩).1 = 0
    ∧ (_gets_int x0 ⟨[], w.stdout⟩).1 = 0
    ∧ (_gets_int x0 ⟨lit "  -7", w.stdout⟩).1 = -7 := by
  refine ⟨?_, (scanf_d_ret w.stdin x0).1, ?_, ?_, rfl, rfl, rfl, rfl⟩
  · rw [gets_int_eq]
  · rw [gets_int_eq]
  · obtain ⟨h1, h2, h3⟩ := (scanf_d_ret w.stdin x0).2 0
    rw [gets_int_eq, gets_int_eq, h1, h2]
    by_cases h : (scanf_d w.stdin x0).ret = 1
    · simp [h, h3 h]
    · simp [h]

/-- C2 (counterexample): on `"12abc"`, a digit run followed directly by
letters, `_gets_int` returns 12 and leaves `"abc"` unread; it does not
return 0. -/
theorem gets_int_digits_then_letters :
    _gets_int 0 ⟨lit "12abc", []⟩ = (12, ⟨lit "abc", []⟩)
    ∧ (_gets_int 0 ⟨lit "12abc", []⟩).1 ≠ 0 := by
  decide

/-- C2 (amended): on an input made of white space `ws`, an optional sign, the
longest run `ds` of decimal digits that follows and a remainder `rest`,
`_gets_int` returns the signed value of the run when the run is not empty and
the value is in the range of `int`, whatever the remainder is, and leaves the
remainder unread; when there is no digit at that place it returns 0.
The hypotheses say that the pieces are the ones the scan meets: `rest` does not
start with a digit and, when there is neither sign nor digit, neither with
white space nor with a sign. -/
theorem gets_int_token (x0 : Int) (ws sign ds rest out : List Byte)
    (hws : ∀ c ∈ ws, isspace c = true)
    (hsign : sign = [] ∨ sign = [43] ∨ sign = [45])
    (hds : ∀ c ∈ ds, isdigit c = true)
    (hrest : ∀ c ∈ rest.head?, isdigit c = false)
    (hcanon : sign = [] → ds = [] → ∀ c ∈ rest.head?,
      isspace c = false ∧ c ≠ 43 ∧ c ≠ 45)
    (hrange : isInt (tokenValue sign ds)) :
    _gets_int x0 ⟨ws ++ sign ++ ds ++ rest, out⟩
      = (if ds = [] then 0 else tokenValue sign ds, ⟨rest, out⟩) := by
  rw [gets_int_eq]
  simp only [scanf_d_split x0 ws sign ds rest hws hsign hds hrest hcanon]
  by_cases h : ds = []
  · by_cases h2 : sign = [] ∧ rest = []
    · simp [h, h2, EOF]
    · simp [h, h2]
  · simp [h, storeInt_of_isInt _ hrange]

/-- Instance of `gets_int_token` on `"  -7x"`: the call returns -7 and leaves `"x"`. -/
theorem gets_int_token_witness :
    _gets_int 0 ⟨lit "  -7x", []⟩ = (-7, ⟨lit "x", []⟩) := by
  have h := gets_int_token 0 (lit "  ") (lit "-") (lit "7") (lit "x") []
    (by decide) (by decide) (by decide) (by decide) (by decide) (by decide)
  exact h


/-- C3: for every `n` in the range of `int`, `_print_int n` appends exactly
`"Out: "`, the signed decimal representation of `n` and one newline to standard
output, leaves standard input alone and returns 0. -/
theorem print_int_decimal (n : Int) (hn : isInt n) (w : World) :
    _print_int n w
      = some (0, ⟨w.stdin, w.stdout ++ lit "Out: " ++ decimal n ++ lit "\n"⟩) := by
  rw [print_int_eq n hn, fmt_d_eq_decimal]
  simp only [List.append_assoc]

/-- Instance of `print_int_decimal` at `INT_MIN`. -/
theorem print_int_decimal_witness :
    isInt INT_MIN ∧
    _print_int INT_MIN ⟨[], []⟩ = some (0, ⟨[], lit "Out: -2147483648\n"⟩) := by
  refine ⟨by decide, ?_⟩
  have h := print_int_decimal INT_MIN (by decide) ⟨[], []⟩
  have hd : decimal INT_MIN = lit "-2147483648" := by
    rw [← fmt_d_eq_decimal]; decide
  rw [h, hd]
  decide

/-- C4 (counterexample): for the string of 2147483643 letters `a`, `"Out: "` and
the string bring the byte count of `printf` above `INT_MAX`; the call stops
there, so `_print_str` writes `"Out: "` and the string but no newline. -/
theorem print_str_too_long :
    _print_str (List.replicate 2147483643 97 ++ [0]) ⟨[], []⟩
      = some (0, ⟨[], lit "Out: " ++ List.replicate 2147483643 97⟩)
    ∧ _print_str (List.replicate 2147483643 97 ++ [0]) ⟨[], []⟩
      ≠ some (0, ⟨[], lit "Out: " ++ List.replicate 2147483643 97 ++ lit "\n"⟩) := by
  have hs : ∀ c ∈ List.replicate 2147483643 (97 : Byte), c ≠ 0 := by
    intro c hc
    rw [List.eq_of_mem_replicate hc]
    decide
  have h := print_str_nul_free (List.replicate 2147483643 97) [] hs ⟨[], []⟩
  rw [List.length_replicate, if_neg (by omega)] at h
  simp only [List.append_nil, List.nil_append] at h
  refine ⟨h, ?_⟩
  rw [h]
  intro e
  have e1 := congrArg (fun r => (Option.map (fun p => p.2.stdout.length) r)) e
  simp only [Option.map_some', List.length_append] at e1
  have e2 := Option.some.inj e1
  have l1 : (lit "\n").length = 1 := rfl
  omega

/-- C4 (amended): for every byte string `s` without NUL and of at most
2147483642 bytes (`INT_MAX - 5`), stored NUL-terminated in memory (whatever
follows the terminator), `_print_str` appends exactly `"Out: "`, the bytes of
`s` unchanged and one newline, and returns 0. -/
theorem print_str_verbatim (s after : List Byte) (hs : ∀ c ∈ s, c ≠ 0)
    (hlen : s.length ≤ 2147483642) (w : World) :
    _print_str (s ++ 0 :: after) w
      = some (0, ⟨w.stdin, w.stdout ++ lit "Out: " ++ s ++ lit "\n"⟩) := by
  rw [print_str_nul_free s after hs w, if_pos hlen]
  simp only [List.append_assoc]

/-- Instances of `print_str_verbatim` on `"hi"` and on the empty string. -/
theorem print_str_verbatim_witness :
    _print_str (lit "hi" ++ [0]) ⟨[], []⟩ = some (0, ⟨[], lit "Out: hi\n"⟩)
    ∧ _print_str [0] ⟨[], []⟩ = some (0, ⟨[], lit "Out: \n"⟩) :=
  ⟨print_str_verbatim (lit "hi") [] (by decide) (by decide) ⟨[], []⟩,
   print_str_verbatim [] [] (by decide) (by decide) ⟨[], []⟩⟩

/-- C5: for every character code `c` from 0 to 255, `_print_char c` appends
exactly one byte, of value `c`, with no prefix and no newline, and returns 0. -/
theorem print_char_byte (c : Int) (h0 : 0 ≤ c) (h1 : c ≤ 255) (w : World) :
    _print_char c w = some (0, ⟨w.stdin, w.stdout ++ [toUChar c]⟩)
    ∧ ((toUChar c).val : Int) = c := by
  refine ⟨print_char_eq c w, ?_⟩
  rw [toUChar_val]
  omega

/-- Instance of `print_char_byte` at 65, the letter `A`. -/
theorem print_char_byte_witness :
    _print_char 65 ⟨[], []⟩ = some (0, ⟨[], lit "A"⟩) :=
  (print_char_byte 65 (by decide) (by decide) ⟨[], []⟩).1

/-- C6: for every finite `double` `f`, `_print_float f` appends exactly
`"Out: "`, the general-format (`%g`, six significant digits) rendering of the
value of `f` and one newline, and returns 0. -/
theorem print_float_general (f : Double) (hf : f.isFiniteValue) (w : World) :
    _print_float f w
      = some (0, ⟨w.stdin, w.stdout ++ lit "Out: " ++ general_format f ++ lit "\n"⟩) := by
  rw [print_float_eq, fmt_g_eq_general f hf]
  simp only [List.append_assoc]

/-- Instances of `print_float_general` at the binary64 values `3.0`
(`6755399441055744 * 2^-51`) and `0.1` (`7205759403792794 * 2^-56`). -/
theorem print_float_general_witness :
    _print_float (.finite false 6755399441055744 (-51)) ⟨[], []⟩
      = some (0, ⟨[], lit "Out: 3\n"⟩)
    ∧ _print_float (.finite false 7205759403792794 (-56)) ⟨[], []⟩
      = some (0, ⟨[], lit "Out: 0.1\n"⟩) :=
  ⟨(print_float_general (.finite false 6755399441055744 (-51)) (by decide) ⟨[], []⟩).trans
      (by rw [← fmt_g_eq_general _ (by decide)]; decide),
   (print_float_general (.finite false 7205759403792794 (-56)) (by decide) ⟨[], []⟩).trans
      (by rw [← fmt_g_eq_general _ (by decide)]; decide)⟩

/-- C7: each of the four print functions appends, at every console state, bytes
that depend on its argument only, and called twice in a row with the same
argument appends those bytes twice. -/
theorem print_twice_appends_twice (n : Int) (f : Double) (c : Int) (s : List Byte)
    (hs : 0 ∈ s) :
    (∃ out, ∀ w, _print_int n w = some (0, ⟨w.stdin, w.stdout ++ out⟩) ∧
      twice (_print_int n) w = some (0, ⟨w.stdin, w.stdout ++ out ++ out⟩)) ∧
    (∃ out, ∀ w, _print_float f w = some (0, ⟨w.stdin, w.stdout ++ out⟩) ∧
      twice (_print_float f) w = some (0, ⟨w.stdin, w.stdout ++ out ++ out⟩)) ∧
    (∃ out, ∀ w, _print_char c w = some (0, ⟨w.stdin, w.stdout ++ out⟩) ∧
      twice (_print_char c) w = some (0, ⟨w.stdin, w.stdout ++ out ++ out⟩)) ∧
    (∃ out, ∀ w, _print_str s w = some (0, ⟨w.stdin, w.stdout ++ out⟩) ∧
      twice (_print_str s) w = some (0, ⟨w.stdin, w.stdout ++ out ++ out⟩)) :=
  ⟨⟨_, fun w => ⟨print_int_emit n w, twice_append _ _ (print_int_emit n) w⟩⟩,
   ⟨_, fun w => ⟨print_float_emit f w, twice_append _ _ (print_float_emit f) w⟩⟩,
   ⟨_, fun w => ⟨print_char_eq c w, twice_append _ _ (print_char_eq c) w⟩⟩,
   ⟨_, fun w => ⟨print_str_eq s hs w, twice_append _ _ (print_str_eq s hs) w⟩⟩⟩

/-- Instance of `print_twice_appends_twice`: each print function called twice
after the output `"a"`. -/
theorem print_twice_appends_twice_witness :
    twice (_print_int 1) ⟨[], lit "a"⟩ = some (0, ⟨[], lit "aOut: 1\nOut: 1\n"⟩)
    ∧ twice (_print_float (.finite false 6755399441055744 (-51))) ⟨[], lit "a"⟩
        = some (0, ⟨[], lit "aOut: 3\nOut: 3\n"⟩)
    ∧ twice (_print_char 65) ⟨[], lit "a"⟩ = some (0, ⟨[], lit "aAA"⟩)
    ∧ twice (_print_str (lit "x" ++ [0])) ⟨[], lit "a"⟩
        = some (0, ⟨[], lit "aOut: x\nOut: x\n"⟩) := by
  obtain ⟨⟨o1, h1⟩, ⟨o2, h2⟩, ⟨o3, h3⟩, ⟨o4, h4⟩⟩ :=
    print_twice_appends_twice 1 (.finite false 6755399441055744 (-51)) 65 (lit "x" ++ [0])
      (by decide)
  have e1 : o1 = lit "Out: 1\n" := by
    have a := (h1 ⟨[], []⟩).1
    have b : _print_int 1 ⟨[], []⟩ = some (0, ⟨[], [] ++ lit "Out: 1\n"⟩) := by decide
    rw [a] at b
    simpa using b
  have e2 : o2 = lit "Out: 3\n" := by
    have a := (h2 ⟨[], []⟩).1
    have b : _print_float (.finite false 6755399441055744 (-51)) ⟨[], []⟩
        = some (0, ⟨[], [] ++ lit "Out: 3\n"⟩) := by decide
    rw [a] at b
    simpa using b
  have e3 : o3 = lit "A" := by
    have a := (h3 ⟨[], []⟩).1
    have b : _print_char 65 ⟨[], []⟩ = some (0, ⟨[], [] ++ lit "A"⟩) := by decide
    rw [a] at b
    simpa using b
  have e4 : o4 = lit "Out: x\n" := by
    have a := (h4 ⟨[], []⟩).1
    have b : _print_str (lit "x" ++ [0]) ⟨[], []⟩
        = some (0, ⟨[], [] ++ lit "Out: x\n"⟩) := by decide
    rw [a] at b
    simpa using b
  subst e1 e2 e3 e4
  exact ⟨(h1 _).2, (h2 _).2, (h3 _).2, (h4 _).2⟩

/-- C8: from an empty standard output and the standard input `"9"`, the calls
`_print_int(1); _print_str("x"); _gets_int()` leave the output
`"Out: 1\nOut: x\n"` and the last call returns 9; the print functions never
change standard input and `_gets_int` never changes standard output. -/
theorem end_to_end (x0 : Int) :
    ((_print_int 1 ⟨lit "9", []⟩).bind fun r1 =>
      (_print_str (lit "x" ++ [0]) r1.2).map fun r2 => _gets_int x0 r2.2)
      = some (9, ⟨[], lit "Out: 1\nOut: x\n"⟩)
    ∧ (∀ n w r, _print_int n w = some r → r.2.stdin = w.stdin)
    ∧ (∀ s w r, _print_str s w = some r → r.2.stdin = w.stdin)
    ∧ (∀ w, (_gets_int x0 w).2.stdout = w.stdout) := by
  refine ⟨rfl, ?_, ?_, ?_⟩
  · intro n w r h
    rw [print_int_emit] at h
    cases h; rfl
  · intro s w r h
    rw [print_str_convert] at h
    cases hc : convert 115 (.str s) with
    | none => rw [hc] at h; cases h
    | some o => rw [hc] at h; cases h; rfl
  · intro w
    rw [gets_int_eq]

/-- C9: for every `int` `x`, `_print_char x` appends exactly one byte, whose
value is `x` reduced modulo 256 (between 0 and 255), and returns 0; so
`x` and `x + 256` give the same output. -/
theorem print_char_mod256 (x : Int) (hx : isInt x) (w : World) :
    _print_char x w = some (0, ⟨w.stdin, w.stdout ++ [toUChar x]⟩)
    ∧ ((toUChar x).val : Int) = x % 256
    ∧ _print_char (x + 256) w = _print_char x w := by
  refine ⟨print_char_eq x w, toUChar_val x, ?_⟩
  have h : toUChar (x + 256) = toUChar x := by
    apply Fin.ext
    have h1 := toUChar_val (x + 256)
    have h2 := toUChar_val x
    rw [Int.add_emod_self] at h1
    omega
  rw [print_char_eq, print_char_eq, h]

/-- Instances of `print_char_mod256` at -191, 321 and `INT_MIN`. -/
theorem print_char_mod256_witness :
    _print_char (-191) ⟨[], []⟩ = some (0, ⟨[], lit "A"⟩)
    ∧ _print_char 321 ⟨[], []⟩ = some (0, ⟨[], lit "A"⟩)
    ∧ _print_char INT_MIN ⟨[], []⟩ = some (0, ⟨[], [0]⟩) :=
  ⟨(print_char_mod256 (-191) (by decide) ⟨[], []⟩).1,
   (print_char_mod256 321 (by decide) ⟨[], []⟩).1,
   (print_char_mod256 INT_MIN (by decide) ⟨[], []⟩).1⟩

/-- C10: when the first byte of standard input after leading white space is
neither white space, a digit nor a sign, `_gets_int` returns 0 and consumes the
white space only, the offending byte staying unread; every later `_gets_int`
call then returns 0 as well and leaves the stream as it is. -/
theorem gets_int_stuck (xs : List Int) (x0 : Int) (ws : List Byte) (c : Byte)
    (rest out : List Byte) (hws : ∀ b ∈ ws, isspace b = true)
    (hc : isspace c = false ∧ isdigit c = false ∧ c ≠ 43 ∧ c ≠ 45) :
    _gets_int x0 ⟨ws ++ c :: rest, out⟩ = (0, ⟨c :: rest, out⟩)
    ∧ gets_ints xs ⟨c :: rest, out⟩ = (List.replicate xs.length 0, ⟨c :: rest, out⟩) := by
  have key : ∀ (y : Int) (l : List Byte), (∀ b ∈ l, isspace b = true) →
      _gets_int y ⟨l ++ c :: rest, out⟩ = (0, ⟨c :: rest, out⟩) := by
    intro y l hl
    have h := scanf_d_split y l [] [] (c :: rest) hl (Or.inl rfl) (by simp)
      (by simpa using hc.2.1) (by intro _ _; simpa using ⟨hc.1, hc.2.2⟩)
    simp only [List.append_nil] at h
    rw [gets_int_eq]
    simp [h]
  refine ⟨key x0 ws hws, ?_⟩
  induction xs with
  | nil => rfl
  | cons y ys ih =>
    have h := key y [] (by simp)
    simp only [List.nil_append] at h
    simp [gets_ints, h, ih, List.replicate_succ]

/-- Instance of `gets_int_stuck` on `"abc 5"`: two calls in a row return 0. -/
theorem gets_int_stuck_witness :
    _gets_int 7 ⟨lit "abc 5", []⟩ = (0, ⟨lit "abc 5", []⟩)
    ∧ gets_ints [8] ⟨lit "abc 5", []⟩ = ([0], ⟨lit "abc 5", []⟩) :=
  gets_int_stuck [8] 7 [] 97 (lit "bc 5") [] (by decide) (by decide)

end Walrus
